import Mathlib

/-!
# EEW-WebUI dispatcher: shallow embedding and verification

This file embeds, in Lean 4, the parts of the EEW-WebUI dispatcher that the
frozen claims are about:

* the per-client downsampling of waveform packets
  (`calculate_downsample_factor`, `downsample_waveform`, and the per-entry
  transform inside `ConnectionManager.send_wave_packet`);
* the subscription filter of `ConnectionManager.send_wave_packet`
  (wave-id splitting on dots, the `__ALL_Z__` wildcard);
* the historical pick deduplication of `get_historical_picks`;
* the signal pipeline (`batch_signal_processing`, `signal_processing`): the
  demean step and the second-order-sections forward filter.  The Butterworth
  coefficients are transcendental reals produced by the scientific library;
  both call sites request the identical filter (lowpass, 10 Hz, 100 Hz,
  4 poles), so the coefficient list is abstracted as a shared parameter of
  both functions;
* the 2-second start-edge linear taper of `get_historical_waves_bulk`;
* the per-station circular window buffer of `dispatcher.py`
  (`circular_write`, `assemble_last_window`);
* the initial stream offsets of `redis_wave_reader`, `redis_pick_reader`
  and `redis_eew_reader`, and the `request_historical_data` defaults.

Sample values are modelled as exact rationals (the Python code computes in
float64; the claims under study are about structural properties that are
independent of rounding, and divergences found below already occur in exact
arithmetic).
-/

/-! ## Downsampling (redis_fastapi_backend.py lines 22-26, 823-855) -/

/-- `FIXED_TIME_WINDOW = 120` (seconds), redis_fastapi_backend.py line 26. -/
def FIXED_TIME_WINDOW : Nat := 120

/-- `POINTS_PER_PIXEL = 1.0`, redis_fastapi_backend.py line 25 (the float
constant is the integer one). -/
def POINTS_PER_PIXEL : Nat := 1

/-- `calculate_downsample_factor(samprate, resolution_width)`,
redis_fastapi_backend.py lines 838-855:
`total_points = FIXED_TIME_WINDOW * samprate`,
`target_points = resolution_width * POINTS_PER_PIXEL`,
`factor = int(total_points / target_points)`, `return max(1, factor)`.
Python `int` truncation of a nonnegative quotient is floor division. -/
def calculate_downsample_factor (samprate resolution_width : Nat) : Nat :=
  max 1 (FIXED_TIME_WINDOW * samprate / (resolution_width * POINTS_PER_PIXEL))

/-- Auxiliary recursion for `waveform[::factor]`: keep the elements whose
index (counted from `i`) is a multiple of `f`. -/
def downsampleAux (f : Nat) : Nat → List ℚ → List ℚ
  | _, [] => []
  | i, x :: xs =>
    if i % f = 0 then x :: downsampleAux f (i + 1) xs
    else downsampleAux f (i + 1) xs

/-- `downsample_waveform(waveform, factor)`, redis_fastapi_backend.py lines
823-836: `if factor <= 1: return waveform` else `waveform[::factor]`. -/
def downsample_waveform (waveform : List ℚ) (factor : Nat) : List ℚ :=
  if factor ≤ 1 then waveform else downsampleAux factor 0 waveform

/-! ## Wave packets and the per-client entry transform
(`ConnectionManager.send_wave_packet`, redis_fastapi_backend.py lines
71-139) -/

/-- One entry of a live `wave_batch` (as built by `redis_wave_reader`,
lines 642-648): waveform, pga, startt, endt, samprate. -/
structure WaveData where
  waveform : List ℚ
  pga : ℚ
  startt : ℚ
  endt : ℚ
  samprate : Nat
  deriving DecidableEq

/-- A downsampled entry as built in `send_wave_packet` lines 117-125:
the original fields with the waveform replaced and the five downsampling
fields added. -/
structure DownsampledWave where
  waveform : List ℚ
  pga : ℚ
  startt : ℚ
  endt : ℚ
  samprate : Nat
  effective_samprate : ℚ
  original_length : Nat
  downsampled_length : Nat
  downsample_factor : Nat
  deriving DecidableEq

/-- What `send_wave_packet` puts into `downsampled_batch` for one wave id:
the downsampled record when the waveform is nonempty, the original record
otherwise (lines 109-127). -/
inductive SentEntry where
  | downsampled (d : DownsampledWave)
  | passthrough (w : WaveData)
  deriving DecidableEq

/-- The per-entry body of `send_wave_packet` (lines 109-127): for a
nonempty waveform, compute the factor from the client resolution, decimate,
and record both lengths, the factor and the effective sample rate. -/
def downsample_entry (resolution_width : Nat) (wd : WaveData) : SentEntry :=
  if wd.waveform = [] then .passthrough wd
  else
    .downsampled
      { waveform := downsample_waveform wd.waveform
          (calculate_downsample_factor wd.samprate resolution_width)
        pga := wd.pga
        startt := wd.startt
        endt := wd.endt
        samprate := wd.samprate
        effective_samprate := (wd.samprate : ℚ)
          / ((calculate_downsample_factor wd.samprate resolution_width : Nat) : ℚ)
        original_length := wd.waveform.length
        downsampled_length := (downsample_waveform wd.waveform
          (calculate_downsample_factor wd.samprate resolution_width)).length
        downsample_factor := calculate_downsample_factor wd.samprate resolution_width }

/-! ## Subscription filter (`send_wave_packet`, lines 78-100) -/

/-- Split a character list at every dot, mirroring Python
`wave_id.split(".")` (`"".split(".") == [""]`, and a trailing dot yields a
trailing empty field). -/
def splitDotAux (cur : List Char) : List Char → List (List Char)
  | [] => [cur.reverse]
  | c :: cs =>
    if c = '.' then cur.reverse :: splitDotAux [] cs
    else splitDotAux (c :: cur) cs

/-- The dot-separated fields of a wave id string. -/
def splitDot (wid : String) : List (List Char) :=
  splitDotAux [] wid.data

/-- Python `channel.endswith("Z")`: the last character is 'Z'. -/
def endsWithZ (s : List Char) : Bool :=
  s.getLast? = some 'Z'

/-- The filter of `send_wave_packet` (lines 84-98): when the subscription
set holds `"__ALL_Z__"`, keep wave ids with at least four dot-fields whose
fourth field ends in 'Z'; otherwise keep wave ids with at least two
dot-fields whose second field is in the set. -/
def wave_id_matches (subscribed_codes : List String) (wave_id : String) : Bool :=
  if subscribed_codes.contains ("__ALL_Z__") then
    decide (4 ≤ (splitDot wave_id).length) && endsWithZ ((splitDot wave_id).getD 3 [])
  else
    decide (2 ≤ (splitDot wave_id).length) &&
      subscribed_codes.contains (String.mk ((splitDot wave_id).getD 1 []))

/-- `filtered_batch` of `send_wave_packet` (lines 82-98) over an
insertion-ordered batch. -/
def filtered_batch (subscribed_codes : List String)
    (wave_batch : List (String × WaveData)) : List (String × WaveData) :=
  wave_batch.filter (fun p => wave_id_matches subscribed_codes p.1)

/-- The data entries of the `wave_packet` frame sent to one client by
`send_wave_packet`: `none` when no frame is sent (empty subscription, line
79, or empty filtered batch, line 100), otherwise the filtered entries put
through the per-entry downsampling. -/
def send_wave_packet_entries (resolution_width : Nat)
    (subscribed_codes : List String) (wave_batch : List (String × WaveData)) :
    Option (List (String × SentEntry)) :=
  if subscribed_codes = [] then none
  else if filtered_batch subscribed_codes wave_batch = [] then none
  else some ((filtered_batch subscribed_codes wave_batch).map
    (fun p => (p.1, downsample_entry resolution_width p.2)))

/-- The coverage predicate in the words of the claim (spec §4.5 `match`):
the station component is in the set, or the set holds `"__ALL_Z__"` and the
channel component ends with 'Z'.  Stated for comparison with the code's
`wave_id_matches`. -/
def spec_covers (subscribed_codes : List String) (wave_id : String) : Bool :=
  subscribed_codes.contains (String.mk ((splitDot wave_id).getD 1 [])) ||
    (subscribed_codes.contains ("__ALL_Z__") &&
      endsWithZ ((splitDot wave_id).getD 3 []))

/-! ## Historical pick deduplication (`get_historical_picks`,
redis_fastapi_backend.py lines 468-533) -/

/-- A parsed pick record: the fields `get_historical_picks` reads from the
JSON (`station`, `channel`, `time`, `update_sec`, lines 504-507), plus the
rest of the parsed payload, kept opaque as `payload`, which is what the
emitted packet carries. -/
structure PickRec where
  station : String
  channel : String
  time : ℚ
  update_sec : Int
  payload : String
  deriving DecidableEq

/-- The dedupe key `(station, channel, pick_time)` (line 510). -/
def pickKey (r : PickRec) : String × String × ℚ :=
  (r.station, r.channel, r.time)

/-- Association-list lookup modelling Python dict lookup. -/
def alookup {κ ν : Type} [DecidableEq κ] (k : κ) : List (κ × ν) → Option ν
  | [] => none
  | p :: ps => if p.1 = k then some p.2 else alookup k ps

/-- One iteration of the dedupe loop (lines 509-517): insert when the key
is absent; replace when the incoming `update_sec` is strictly greater than
the stored one; otherwise discard.  A Python dict keeps the insertion
position on overwrite, so replacement maps over the list in place. -/
def pickInsert (pick_map : List ((String × String × ℚ) × PickRec))
    (r : PickRec) : List ((String × String × ℚ) × PickRec) :=
  match alookup (pickKey r) pick_map with
  | none => pick_map ++ [(pickKey r, r)]
  | some s =>
    if s.update_sec < r.update_sec then
      pick_map.map (fun p => if p.1 = pickKey r then (pickKey r, r) else p)
    else pick_map

/-- `get_historical_picks` over the parsed messages of the range scan:
fold the dedupe loop and return the stored records in map order
(lines 493-530). -/
def get_historical_picks (msgs : List PickRec) : List PickRec :=
  (msgs.foldl pickInsert []).map Prod.snd

/-- The `historical_picks_batch` frame payload (lines 253-259). -/
structure PicksBatchFrame where
  picks : List PickRec
  count : Nat
  deriving DecidableEq

/-- The single frame emitted after a historical request: the deduplicated
picks with `count = len(pick_packets)` (lines 253-259). -/
def historical_picks_batch (msgs : List PickRec) : PicksBatchFrame :=
  { picks := get_historical_picks msgs
    count := (get_historical_picks msgs).length }

/-! ## Signal pipeline (redis_fastapi_backend.py lines 876-964)

The filter is a cascade of second-order sections applied forward once
(`scipy.signal.sosfilt`, direct form II transposed, zero initial state).
`lowpass` (used by `signal_processing`) and `lowpass_sos` (used by
`batch_signal_processing`) construct the identical 4-pole 10 Hz Butterworth
SOS at 100 Hz; the construction lives in the scientific library and its
coefficients are transcendental, so the section list is a shared parameter
here. -/

/-- One second-order section, denominator normalized (`a0 = 1`). -/
structure Biquad where
  b0 : ℚ
  b1 : ℚ
  b2 : ℚ
  a1 : ℚ
  a2 : ℚ
  deriving DecidableEq

/-- One biquad applied forward (direct form II transposed) with state
`(s1, s2)`, zero at the start: `y = b0*x + s1`;
`s1 := b1*x - a1*y + s2`; `s2 := b2*x - a2*y`. -/
def biquadAux (c : Biquad) (s1 s2 : ℚ) : List ℚ → List ℚ
  | [] => []
  | x :: xs =>
    let y := c.b0 * x + s1
    y :: biquadAux c (c.b1 * x - c.a1 * y + s2) (c.b2 * x - c.a2 * y) xs

/-- A biquad run from zero initial state. -/
def biquadFilter (c : Biquad) (xs : List ℚ) : List ℚ :=
  biquadAux c 0 0 xs

/-- `sosfilt`: the cascade of the sections, each forward once. -/
def sosfilt (sos : List Biquad) (xs : List ℚ) : List ℚ :=
  sos.foldl (fun acc c => biquadFilter c acc) xs

/-- `detrend(w, type="constant")`: subtract the mean of the array
(over ℚ, the mean of `[]` is `0/0 = 0`). -/
def demean (w : List ℚ) : List ℚ :=
  w.map (fun x => x - w.sum / (w.length : ℚ))

/-- `signal_processing(waveform)` (lines 924-933): demean, then the forward
SOS lowpass. -/
def signal_processing (sos : List Biquad) (waveform : List ℚ) : List ℚ :=
  sosfilt sos (demean waveform)

/-- The maximum waveform length of a batch (`max(len(w) for w in waveforms)`,
line 886, over a nonempty batch). -/
def maxLenOf (waveforms : List (List ℚ)) : Nat :=
  (waveforms.map List.length).foldl max 0

/-- `batch_signal_processing(waveforms)` (lines 876-916): zero-pad every
array to the batch maximum length, demean each padded row (numpy
`mean(stacked, axis=1)` averages over the padded length), filter each row
forward, and truncate each row back to its original length. -/
def batch_signal_processing (sos : List Biquad) (waveforms : List (List ℚ)) :
    List (List ℚ) :=
  if waveforms = [] then []
  else
    ((waveforms.map (fun w =>
        sosfilt sos
          (demean (w ++ List.replicate (maxLenOf waveforms - w.length) (0 : ℚ))))).zip
      (waveforms.map List.length)).map (fun p => p.1.take p.2)

/-- Rational approximation of the 4-pole Butterworth lowpass SOS at
10 Hz / 100 Hz sampling that the code requests from the scientific library
(the exact coefficients are transcendental; only their leading numerator
coefficient being nonzero matters below, which holds for every Butterworth
lowpass). -/
def butter_sos_q : List Biquad :=
  [ { b0 := 48 / 10000, b1 := 96 / 10000, b2 := 48 / 10000
      a1 := -10486 / 10000, a2 := 2961 / 10000 }
  , { b0 := 1, b1 := 2, b2 := 1
      a1 := -13209 / 10000, a2 := 6327 / 10000 } ]

/-! ## Historical start-edge taper (`get_historical_waves_bulk`,
redis_fastapi_backend.py lines 393-403) -/

/-- `np.linspace(0, 1, n)` at index `i`: `i / (n - 1)` for `n ≥ 2`, and the
single value `0` for `n = 1`. -/
def linramp (n i : Nat) : ℚ :=
  if n ≤ 1 then 0 else (i : ℚ) / ((n - 1 : Nat) : ℚ)

/-- Pointwise tapering with index tracking: multiply the sample at index
`i < taper_len` by `g taper_len i`, leave later samples unchanged. -/
def taperGo (g : Nat → Nat → ℚ) (taper_len : Nat) : Nat → List ℚ → List ℚ
  | _, [] => []
  | i, x :: xs =>
    (if i < taper_len then x * g taper_len i else x) :: taperGo g taper_len (i + 1) xs

/-- Multiply the first `min (length, 200)` samples by `g taper_len i` and
leave the rest unchanged. -/
def taperWith (g : Nat → Nat → ℚ) (w : List ℚ) : List ℚ :=
  taperGo g (min w.length 200) 0 w

/-- The taper of lines 399-403: multiply the first `min (length, 200)`
samples by the linear ramp `linspace 0 1`. -/
def apply_taper (w : List ℚ) : List ℚ :=
  taperWith linramp w

/-! ## Per-station circular window buffer (dispatcher.py lines 24-91)

`WINDOW_SEC = 30`, `SR = 100`, `NSAMPLE = WINDOW_SEC * SR`; samples are
int16 (modelled as `Int`).  The buffer state is the fixed-capacity array
plus the next-write index; the write and snapshot logic is parameterized by
the capacity `N` (the code's `NSAMPLE`). -/

/-- `WINDOW_SEC = 30` (dispatcher.py line 27). -/
def WINDOW_SEC : Nat := 30

/-- `SAMPLE_RATE = 100` (dispatcher.py line 28). -/
def SR : Nat := 100

/-- `NSAMPLE = WINDOW_SEC * SR` (dispatcher.py line 29). -/
def NSAMPLE : Nat := WINDOW_SEC * SR

/-- The per-station state: `buffers[station]` and `write_idx[station]`. -/
structure RingBuf where
  buf : List Int
  idx : Nat
  deriving DecidableEq

/-- The last `n` elements of a list. -/
def lastN {α : Type} (n : Nat) (l : List α) : List α :=
  l.drop (l.length - n)

/-- Numpy slice assignment `buf[i : i + arr.length] = arr` (the uses below
always fit inside the buffer). -/
def setSlice {α : Type} (l : List α) (i : Nat) (arr : List α) : List α :=
  l.take i ++ arr ++ l.drop (i + arr.length)

/-- `ensure_station_buffer` (dispatcher.py lines 55-60): a zero-filled
buffer of capacity `N` with write index 0. -/
def init_buffer (N : Nat) : RingBuf :=
  { buf := List.replicate N 0, idx := 0 }

/-- `circular_write` (dispatcher.py lines 62-79): an arriving chunk of
length `≥ N` overwrites the buffer with its last `N` samples and resets the
index; otherwise the chunk is written at the index, wrapping once when it
crosses the end, and the index advances modulo `N`. -/
def circular_write (N : Nat) (st : RingBuf) (arr : List Int) : RingBuf :=
  if N ≤ arr.length then { buf := lastN N arr, idx := 0 }
  else if st.idx + arr.length ≤ N then
    { buf := setSlice st.buf st.idx arr
      idx := (st.idx + arr.length) % N }
  else
    let a := N - st.idx
    { buf := setSlice (setSlice st.buf st.idx (arr.take a)) 0 (arr.drop a)
      idx := (st.idx + arr.length) % N }

/-- The snapshot of an existing buffer (dispatcher.py lines 85-91):
`buf[idx:] + buf[:idx]` (for `idx = 0` the code returns `buf.copy()`,
which is the same list). -/
def assemble (st : RingBuf) : List Int :=
  st.buf.drop st.idx ++ st.buf.take st.idx

/-- Fold a sequence of packets through `circular_write`. -/
def write_all (N : Nat) (st : RingBuf) (packets : List (List Int)) : RingBuf :=
  packets.foldl (circular_write N) st

/-- Buffer well-formedness: full capacity, index in range. -/
def BufWF (N : Nat) (st : RingBuf) : Prop :=
  st.buf.length = N ∧ st.idx < N

/-- `assemble_last_window(station)` (dispatcher.py lines 81-91) over the
global `buffers` map: a zero window of `NSAMPLE` samples when the station
has no buffer, else the snapshot. -/
def assemble_last_window (buffers : List (String × RingBuf))
    (station : String) : List Int :=
  match alookup station buffers with
  | none => List.replicate NSAMPLE 0
  | some st => assemble st

/-- The samples part of the `/api/station_window/{station}` response
(dispatcher.py lines 153-160) and of the `fetch_window` WebSocket reply
(lines 192-198): both call `assemble_last_window`. -/
def get_station_window_samples (buffers : List (String × RingBuf))
    (station : String) : List Int :=
  assemble_last_window buffers station

/-! ## Stream reader start offsets (redis_fastapi_backend.py lines
536-791) -/

/-- The discovery step of `redis_wave_reader` (lines 554-563): every
scanned key not yet in `stream_ids` is added with start id `'0-0'`. -/
def discover_streams (stream_ids : List (String × String))
    (keys : List String) : List (String × String) :=
  keys.foldl
    (fun m key =>
      if (alookup key m).isSome then m else m ++ [(key, "0-0")])
    stream_ids

/-- `redis_pick_reader` initial `last_id` (line 698). -/
def pick_reader_initial_id : String := "0-0"

/-- `redis_eew_reader` initial `last_id` (line 762). -/
def eew_reader_initial_id : String := "$"

/-! ## Historical request defaults (`websocket_endpoint`,
redis_fastapi_backend.py lines 177-193) -/

/-- `payload.get("window_seconds", 121)` (line 180). -/
def request_window_seconds (payload : Option Nat) : Nat :=
  payload.getD 121

/-- `start_time = end_time - window_seconds` (line 193): the requested
window is used as is; no clamping is applied to it. -/
def historical_start_time (end_time : ℚ) (window_seconds : Nat) : ℚ :=
  end_time - (window_seconds : ℚ)

/-! ## Helper lemmas: association lists -/

theorem alookup_append_some {κ ν : Type} [DecidableEq κ] {k : κ} {v : ν}
    {l₁ : List (κ × ν)} (l₂ : List (κ × ν)) (h : alookup k l₁ = some v) :
    alookup k (l₁ ++ l₂) = some v := by
  induction l₁ with
  | nil => simp [alookup] at h
  | cons p ps ih =>
    simp only [alookup, List.cons_append] at h ⊢
    by_cases hc : p.1 = k
    · rw [if_pos hc] at h ⊢
      exact h
    · rw [if_neg hc] at h ⊢
      exact ih h

theorem alookup_append_none {κ ν : Type} [DecidableEq κ] {k : κ}
    {l₁ : List (κ × ν)} (l₂ : List (κ × ν)) (h : alookup k l₁ = none) :
    alookup k (l₁ ++ l₂) = alookup k l₂ := by
  induction l₁ with
  | nil => simp
  | cons p ps ih =>
    simp only [alookup, List.cons_append] at h ⊢
    by_cases hc : p.1 = k
    · rw [if_pos hc] at h
      exact absurd h (by simp)
    · rw [if_neg hc] at h ⊢
      exact ih h

theorem alookup_eq_none_iff {κ ν : Type} [DecidableEq κ] (k : κ)
    (l : List (κ × ν)) : alookup k l = none ↔ k ∉ l.map Prod.fst := by
  induction l with
  | nil => simp [alookup]
  | cons p ps ih =>
    simp only [alookup, List.map_cons, List.mem_cons]
    by_cases hc : p.1 = k
    · simp [if_pos hc, hc]
    · rw [if_neg hc, ih]
      simp only [not_or]
      exact ⟨fun hn => ⟨fun hk => hc hk.symm, hn⟩, fun hp => hp.2⟩

theorem alookup_mem {κ ν : Type} [DecidableEq κ] {k : κ} {v : ν}
    {l : List (κ × ν)} (h : alookup k l = some v) : (k, v) ∈ l := by
  induction l with
  | nil => simp [alookup] at h
  | cons p ps ih =>
    simp only [alookup] at h
    by_cases hc : p.1 = k
    · rw [if_pos hc] at h
      obtain rfl := Option.some.inj h
      rw [← hc]
      exact List.mem_cons_self _ _
    · rw [if_neg hc] at h
      exact List.mem_cons_of_mem _ (ih h)

theorem mem_alookup {κ ν : Type} [DecidableEq κ] {k : κ} {v : ν}
    {l : List (κ × ν)} (hnd : (l.map Prod.fst).Nodup) (hm : (k, v) ∈ l) :
    alookup k l = some v := by
  induction l with
  | nil => simp at hm
  | cons p ps ih =>
    simp only [List.map_cons, List.nodup_cons] at hnd
    rcases List.mem_cons.mp hm with h | h
    · simp [alookup, ← h]
    · have hk : p.1 ≠ k := by
        intro hpk
        exact hnd.1 (hpk ▸ (List.mem_map.mpr ⟨(k, v), h, rfl⟩))
      simp only [alookup, if_neg hk]
      exact ih hnd.2 h

/-! ## Helper lemmas: downsampling length -/

/-- The ceiling-style counter `(i + f - 1) / f` steps by one exactly at the
multiples of `f`. -/
theorem ceil_counter_succ (f i : Nat) (hf : 0 < f) :
    (i + 1 + f - 1) / f
      = (i + f - 1) / f + (if i % f = 0 then 1 else 0) := by
  have hqr : i / f * f + i % f = i := Nat.div_add_mod' i f
  have hrf : i % f < f := Nat.mod_lt _ hf
  by_cases h0 : i % f = 0
  · rw [if_pos h0]
    have h1 : i + 1 + f - 1 = f + i / f * f := by omega
    have h2 : i + f - 1 = (f - 1) + i / f * f := by omega
    rw [h1, h2, Nat.add_mul_div_right _ _ hf, Nat.add_mul_div_right _ _ hf,
      Nat.div_self hf, Nat.div_eq_of_lt (show f - 1 < f by omega)]
    omega
  · rw [if_neg h0]
    have h1 : i + 1 + f - 1 = (i % f + i / f * f) + f := by omega
    have h2 : i + f - 1 = ((i % f - 1) + i / f * f) + f := by omega
    rw [h1, h2, Nat.add_div_right _ hf, Nat.add_div_right _ hf,
      Nat.add_mul_div_right _ _ hf, Nat.add_mul_div_right _ _ hf,
      Nat.div_eq_of_lt hrf, Nat.div_eq_of_lt (show i % f - 1 < f by omega)]

theorem downsampleAux_length (f : Nat) (hf : 0 < f) :
    ∀ (i : Nat) (w : List ℚ),
      (downsampleAux f i w).length + (i + f - 1) / f
        = (i + w.length + f - 1) / f := by
  intro i w
  induction w generalizing i with
  | nil => simp [downsampleAux]
  | cons x xs ih =>
    have hstep := ceil_counter_succ f i hf
    have hnum : i + (x :: xs).length + f - 1 = i + 1 + xs.length + f - 1 := by
      simp only [List.length_cons]
      omega
    rw [hnum]
    have hih := ih (i + 1)
    simp only [downsampleAux]
    by_cases hc : i % f = 0
    · rw [if_pos hc] at hstep
      rw [if_pos hc]
      simp only [List.length_cons]
      omega
    · rw [if_neg hc] at hstep
      rw [if_neg hc]
      omega

/-- `len(waveform[::factor]) = ceil(len(waveform) / factor)` for a positive
stride. -/
theorem downsample_waveform_length (w : List ℚ) (f : Nat) (hf : 1 ≤ f) :
    (downsample_waveform w f).length = (w.length + f - 1) / f := by
  unfold downsample_waveform
  split
  · have hf1 : f = 1 := by omega
    subst hf1
    simp
  · have h := downsampleAux_length f (by omega) 0 w
    simp only [Nat.zero_add] at h
    have h0 : (f - 1) / f = 0 := Nat.div_eq_of_lt (by omega)
    omega

/-! ## Helper lemmas: taper -/

theorem taperGo_length (g : Nat → Nat → ℚ) (tl : Nat) :
    ∀ (i : Nat) (w : List ℚ), (taperGo g tl i w).length = w.length := by
  intro i w
  induction w generalizing i with
  | nil => simp [taperGo]
  | cons x xs ih => simp [taperGo, ih]

theorem taperGo_comp (g h : Nat → Nat → ℚ) (tl : Nat) :
    ∀ (i : Nat) (w : List ℚ),
      taperGo g tl i (taperGo h tl i w)
        = taperGo (fun n j => h n j * g n j) tl i w := by
  intro i w
  induction w generalizing i with
  | nil => simp [taperGo]
  | cons x xs ih =>
    simp only [taperGo]
    by_cases hc : i < tl
    · simp [if_pos hc, ih, mul_assoc]
    · simp [if_neg hc, ih]

/-! ## Claim theorems -/

/-- Claim C6 (corrected).  The 2-second start-edge taper is NOT idempotent:
applying it twice multiplies the first `min (length, 200)` samples by the
SQUARE of the linear ramp (and leaves the rest unchanged), which agrees
with a single application only where the ramp value is 0 or 1. -/
theorem apply_taper_twice_eq_squared_ramp (w : List ℚ) :
    apply_taper (apply_taper w)
      = taperWith (fun n i => linramp n i * linramp n i) w := by
  unfold apply_taper taperWith
  rw [taperGo_length]
  exact taperGo_comp linramp linramp _ 0 w

/-- Claim C6, counterexample: on `[1, 1, 1]` the taper length is 3 and the
middle ramp value is 1/2, so a second application turns 1/2 into 1/4 —
double application differs from single application. -/
theorem apply_taper_not_idempotent :
    apply_taper (apply_taper [1, 1, 1]) ≠ apply_taper [1, 1, 1] := by
  norm_num [apply_taper, taperWith, taperGo, linramp]

theorem discover_streams_preserves {k v : String} (keys : List String) :
    ∀ (m : List (String × String)), alookup k m = some v →
      alookup k (discover_streams m keys) = some v := by
  induction keys with
  | nil => intro m h; exact h
  | cons key ks ih =>
    intro m h
    show alookup k (discover_streams
      (if (alookup key m).isSome then m else m ++ [(key, "0-0")]) ks) = some v
    by_cases hc : (alookup key m).isSome
    · rw [if_pos hc]
      exact ih m h
    · rw [if_neg hc]
      exact ih _ (alookup_append_some _ h)

/-- Claim C7 (corrected).  Newly discovered `wave:{station}:{channel}`
streams are read from the earliest retained offset `'0-0'`; the `eew`
stream starts from the current tip `'$'`; but the `pick` stream ALSO
starts from `'0-0'`, not from `'$'`. -/
theorem stream_reader_start_ids :
    (∀ (m : List (String × String)) (keys : List String) (k : String),
        k ∈ keys → alookup k m = none →
          alookup k (discover_streams m keys) = some ("0-0"))
    ∧ pick_reader_initial_id = "0-0"
    ∧ eew_reader_initial_id = "$" := by
  refine ⟨?_, rfl, rfl⟩
  intro m keys
  induction keys generalizing m with
  | nil =>
    intro k hk
    simp at hk
  | cons key ks ih =>
    intro k hk hnone
    show alookup k (discover_streams
      (if (alookup key m).isSome then m else m ++ [(key, "0-0")]) ks)
        = some ("0-0")
    by_cases hkey : k = key
    · subst hkey
      have hiss : ¬ (alookup k m).isSome := by
        rw [hnone]
        simp
      rw [if_neg hiss]
      apply discover_streams_preserves
      rw [alookup_append_none _ hnone]
      simp [alookup]
    · have hks : k ∈ ks := by
        rcases List.mem_cons.mp hk with h | h
        · exact absurd h hkey
        · exact h
      by_cases hc : (alookup key m).isSome
      · rw [if_pos hc]
        exact ih m k hks hnone
      · rw [if_neg hc]
        refine ih _ k hks ?_
        rw [alookup_append_none _ hnone]
        have hne : ¬ key = k := fun hkk => hkey hkk.symm
        simp [alookup, hne]

/-- Claim C7, witness: a fresh key is registered at `'0-0'`, and the pick
reader's initial id is `'0-0'`. -/
theorem stream_reader_start_ids_witness :
    alookup ("wave:STA01:HLZ") (discover_streams [] [("wave:STA01:HLZ")])
        = some ("0-0")
    ∧ pick_reader_initial_id = "0-0" :=
  ⟨stream_reader_start_ids.1 [] [("wave:STA01:HLZ")] ("wave:STA01:HLZ")
      (List.mem_singleton.mpr rfl) rfl,
    stream_reader_start_ids.2.1⟩

/-- Claim C7, counterexample: the claim has both `pick` and `eew` starting
from `'$'`, but `redis_pick_reader` initializes `last_id` to `'0-0'`. -/
theorem stream_reader_start_ids_counterexample :
    ¬ (pick_reader_initial_id = "$" ∧ eew_reader_initial_id = "$") := by
  intro h
  exact absurd h.1 (by decide)

/-- Claim C8 (corrected).  An omitted `window_seconds` defaults to 121
seconds (not 120), a supplied value is used as given, and the range start
is `end_time - window_seconds` with no cap applied. -/
theorem historical_request_window (p : Nat) (end_time : ℚ) (w : Nat) :
    request_window_seconds none = 121
    ∧ request_window_seconds (some p) = p
    ∧ historical_start_time end_time w = end_time - (w : ℚ) :=
  ⟨rfl, rfl, rfl⟩

/-- Claim C8, counterexample: the default is 121, not the claimed 120, and
a huge requested window is used unclamped. -/
theorem historical_request_window_counterexample :
    request_window_seconds none ≠ 120
    ∧ historical_start_time 0 1000000000 = -1000000000 := by
  constructor
  · decide
  · norm_num [historical_start_time]

/-- Claim C10 (confirmed).  For every sample rate and positive client
width, `calculate_downsample_factor` returns at least 1, so the slice
stride handed to `downsample_waveform` is a valid positive step. -/
theorem downsample_factor_positive (samprate resolution_width : Nat)
    (_h : 0 < resolution_width) :
    1 ≤ calculate_downsample_factor samprate resolution_width := by
  unfold calculate_downsample_factor
  exact le_max_left _ _

/-- Claim C10, witness at sample rate 100 and width 1000. -/
theorem downsample_factor_positive_witness :
    0 < 1000 ∧ 1 ≤ calculate_downsample_factor 100 1000 :=
  ⟨by decide, downsample_factor_positive 100 1000 (by decide)⟩

/-- Claim C2 (confirmed).  Every downsampled entry of a `wave_packet` frame
sent to a client with positive display width carries
`downsample_factor = max 1 (120 * samprate / (width * POINTS_PER_PIXEL))`
and `downsampled_length = ceil (original_length / downsample_factor)`
(the ceiling written as `(n + f - 1) / f` over naturals). -/
theorem send_wave_packet_downsampling (resolution_width : Nat)
    (subs : List String) (batch : List (String × WaveData))
    (entries : List (String × SentEntry)) (wid : String) (d : DownsampledWave)
    (_hw : 0 < resolution_width)
    (hsend : send_wave_packet_entries resolution_width subs batch = some entries)
    (hmem : (wid, SentEntry.downsampled d) ∈ entries) :
    d.downsample_factor
      = max 1 (FIXED_TIME_WINDOW * d.samprate / (resolution_width * POINTS_PER_PIXEL))
    ∧ d.downsampled_length
      = (d.original_length + d.downsample_factor - 1) / d.downsample_factor := by
  unfold send_wave_packet_entries at hsend
  by_cases hs : subs = []
  · rw [if_pos hs] at hsend
    exact absurd hsend (by simp)
  · rw [if_neg hs] at hsend
    by_cases hfb : filtered_batch subs batch = []
    · rw [if_pos hfb] at hsend
      exact absurd hsend (by simp)
    · rw [if_neg hfb] at hsend
      obtain rfl := (Option.some.inj hsend).symm
      obtain ⟨p, _hp, hpe⟩ := List.mem_map.mp hmem
      have hpd : downsample_entry resolution_width p.2 = SentEntry.downsampled d :=
        congrArg Prod.snd hpe
      unfold downsample_entry at hpd
      by_cases hwf : p.2.waveform = []
      · rw [if_pos hwf] at hpd
        exact absurd hpd (by simp)
      · rw [if_neg hwf] at hpd
        obtain rfl := (SentEntry.downsampled.inj hpd).symm
        refine ⟨rfl, ?_⟩
        exact downsample_waveform_length _ _ (le_max_left _ _)

/-- Concrete live wave entry used in the witnesses: 3 samples at 100 Hz. -/
def sample_wave : WaveData :=
  { waveform := [1, 2, 3], pga := 3, startt := 0, endt := 2, samprate := 100 }

/-- The downsampled entry `send_wave_packet` produces for `sample_wave` at
display width 1000: factor `max 1 (12000 / 1000) = 12`, one point kept. -/
def sample_down : DownsampledWave :=
  { waveform := [1], pga := 3, startt := 0, endt := 2, samprate := 100
    effective_samprate := 25 / 3, original_length := 3
    downsampled_length := 1, downsample_factor := 12 }

/-- Claim C2, witness: the frame produced for a subscribed client of width
1000 carries the claimed factor and length. -/
theorem send_wave_packet_downsampling_witness :
    0 < 1000
    ∧ send_wave_packet_entries 1000 ["A024"] [(("SM.A024.01.HLZ"), sample_wave)]
        = some [(("SM.A024.01.HLZ"), SentEntry.downsampled sample_down)]
    ∧ (sample_down.downsample_factor
        = max 1 (FIXED_TIME_WINDOW * sample_down.samprate / (1000 * POINTS_PER_PIXEL))
      ∧ sample_down.downsampled_length
        = (sample_down.original_length + sample_down.downsample_factor - 1)
            / sample_down.downsample_factor) := by
  have hde : downsample_entry 1000 sample_wave = SentEntry.downsampled sample_down := by
    norm_num [downsample_entry, sample_wave, sample_down, downsample_waveform,
      downsampleAux, calculate_downsample_factor, FIXED_TIME_WINDOW, POINTS_PER_PIXEL]
    intro h
    simp at h
  have hmatch : wave_id_matches ["A024"] ("SM.A024.01.HLZ") = true := by decide
  have hsend : send_wave_packet_entries 1000 ["A024"]
      [(("SM.A024.01.HLZ"), sample_wave)]
      = some [(("SM.A024.01.HLZ"), SentEntry.downsampled sample_down)] := by
    simp [send_wave_packet_entries, filtered_batch, List.filter_cons, hmatch, hde]
  refine ⟨by decide, hsend, ?_⟩
  exact send_wave_packet_downsampling 1000 ["A024"] _ _ _ _ (by decide) hsend
    (List.mem_singleton.mpr rfl)

/-- Claim C5 (corrected).  A client's `wave_packet` frame contains an entry
for `wave_id` iff `wave_id_matches` holds and the id is in the tick's
batch, where — unlike the claim's either/or — the `__ALL_Z__` branch is
EXCLUSIVE: when the set holds `__ALL_Z__`, only the Z-channel test applies
and plain station membership is ignored.  When nothing matches, no frame is
sent. -/
theorem subscription_filter_frame (resolution_width : Nat) (subs : List String)
    (batch : List (String × WaveData)) (wid : String) :
    (∃ entries,
        send_wave_packet_entries resolution_width subs batch = some entries
          ∧ wid ∈ entries.map Prod.fst)
    ↔ (wave_id_matches subs wid = true ∧ wid ∈ batch.map Prod.fst) := by
  unfold send_wave_packet_entries
  by_cases hs : subs = []
  · subst hs
    rw [if_pos rfl]
    constructor
    · rintro ⟨e, he, -⟩
      exact Option.noConfusion he
    · rintro ⟨hm, -⟩
      rw [show wave_id_matches [] wid = false from by simp [wave_id_matches]] at hm
      cases hm
  · rw [if_neg hs]
    by_cases hfb : filtered_batch subs batch = []
    · rw [if_pos hfb]
      constructor
      · rintro ⟨e, he, -⟩
        exact Option.noConfusion he
      · rintro ⟨hm, hw⟩
        obtain ⟨p, hp, hpw⟩ := List.mem_map.mp hw
        have hpfb : p ∈ filtered_batch subs batch :=
          List.mem_filter.mpr ⟨hp, by rw [hpw]; exact hm⟩
        rw [hfb] at hpfb
        cases hpfb
    · rw [if_neg hfb]
      constructor
      · rintro ⟨e, he, hmem⟩
        obtain rfl := (Option.some.inj he).symm
        rw [List.map_map] at hmem
        obtain ⟨p, hpfb, hpw⟩ := List.mem_map.mp hmem
        obtain ⟨hpb, hpm⟩ := List.mem_filter.mp hpfb
        have hpw1 : p.1 = wid := hpw
        exact ⟨hpw1 ▸ hpm, hpw1 ▸ List.mem_map.mpr ⟨p, hpb, rfl⟩⟩
      · rintro ⟨hm, hw⟩
        refine ⟨_, rfl, ?_⟩
        rw [List.map_map]
        obtain ⟨p, hp, hpw⟩ := List.mem_map.mp hw
        refine List.mem_map.mpr ⟨p, List.mem_filter.mpr ⟨hp, ?_⟩, hpw⟩
        rw [hpw]
        exact hm

/-- Claim C5, counterexample: a client subscribed to
`["__ALL_Z__", "A024"]` is covered for `SM.A024.01.HLE` under the claim's
either/or reading (station `A024` is in the set), yet the code sends no
frame for a batch holding only that id, because the `__ALL_Z__` branch
tests the channel alone and `HLE` does not end in Z. -/
theorem subscription_filter_counterexample :
    spec_covers ["__ALL_Z__", "A024"] ("SM.A024.01.HLE") = true
    ∧ send_wave_packet_entries 1000 ["__ALL_Z__", "A024"]
        [(("SM.A024.01.HLE"), sample_wave)] = none := by
  constructor
  · decide
  · have hmatch :
        wave_id_matches ["__ALL_Z__", "A024"] ("SM.A024.01.HLE") = false := by
      decide
    simp [send_wave_packet_entries, filtered_batch, List.filter_cons, hmatch]

/-- Claim C9 (confirmed).  `assemble_last_window` on a station with no
buffer returns a zero window of exactly `NSAMPLE` samples, and on every
well-formed buffer map the returned window has length `NSAMPLE` — the
window endpoints never fail and always answer full length. -/
theorem assemble_last_window_total (buffers : List (String × RingBuf))
    (station : String)
    (hwf : ∀ p ∈ buffers, BufWF NSAMPLE p.2) :
    (alookup station buffers = none →
      get_station_window_samples buffers station = List.replicate NSAMPLE 0)
    ∧ (get_station_window_samples buffers station).length = NSAMPLE := by
  unfold get_station_window_samples assemble_last_window
  cases hl : alookup station buffers with
  | none => simp
  | some st =>
    constructor
    · intro h
      exact Option.noConfusion h
    · have hm := alookup_mem hl
      have hwfst : BufWF NSAMPLE st := hwf (station, st) hm
      obtain ⟨hlen, hidx⟩ := hwfst
      simp only [assemble, List.length_append, List.length_drop, List.length_take]
      omega

/-- Claim C9, witness: the empty buffer map (no packet ever received). -/
theorem assemble_last_window_total_witness :
    get_station_window_samples [] ("STA01") = List.replicate NSAMPLE 0
    ∧ (get_station_window_samples [] ("STA01")).length = NSAMPLE :=
  ⟨(assemble_last_window_total [] ("STA01") (by simp)).1 rfl,
    (assemble_last_window_total [] ("STA01") (by simp)).2⟩

/-! ## Helper lemmas: signal pipeline -/

theorem biquadAux_length (c : Biquad) :
    ∀ (s1 s2 : ℚ) (xs : List ℚ), (biquadAux c s1 s2 xs).length = xs.length := by
  intro s1 s2 xs
  induction xs generalizing s1 s2 with
  | nil => rfl
  | cons x xs ih => simp [biquadAux, ih]

theorem sosfilt_length (sos : List Biquad) :
    ∀ xs : List ℚ, (sosfilt sos xs).length = xs.length := by
  induction sos with
  | nil => intro xs; rfl
  | cons c cs ih =>
    intro xs
    show (sosfilt cs (biquadFilter c xs)).length = _
    rw [ih, biquadFilter, biquadAux_length]

theorem foldl_max_const (L : Nat) :
    ∀ l : List Nat, (∀ x ∈ l, x = L) → l.foldl max L = L := by
  intro l
  induction l with
  | nil => intro _; rfl
  | cons x xs ih =>
    intro h
    have hx : x = L := h x (List.mem_cons_self _ _)
    simp only [List.foldl_cons, hx, Nat.max_self]
    exact ih (fun y hy => h y (List.mem_cons_of_mem _ hy))

theorem maxLenOf_all_eq (ws : List (List ℚ)) (L : Nat) (hne : ws ≠ [])
    (h : ∀ w ∈ ws, w.length = L) : maxLenOf ws = L := by
  obtain ⟨w0, rest, rfl⟩ := List.exists_cons_of_ne_nil hne
  unfold maxLenOf
  simp only [List.map_cons, List.foldl_cons]
  rw [h w0 (List.mem_cons_self _ _), Nat.zero_max]
  exact foldl_max_const L _
    (fun x hx => by
      obtain ⟨w, hw, rfl⟩ := List.mem_map.mp hx
      exact h w (List.mem_cons_of_mem _ hw))

/-- Claim C3 (corrected/amended).  Batch processing coincides with
individual processing on every batch whose arrays all have the same length
(then zero-padding is empty and the row mean is the array's own mean).  In
general they differ: the batch path demeans over the ZERO-PADDED length
while the individual path demeans over the array's own length. -/
theorem batch_signal_processing_equal_lengths (sos : List Biquad)
    (ws : List (List ℚ))
    (hlen : ∀ w₁ ∈ ws, ∀ w₂ ∈ ws, List.length w₁ = List.length w₂) :
    batch_signal_processing sos ws = ws.map (signal_processing sos) := by
  by_cases hne : ws = []
  · subst hne
    rfl
  · obtain ⟨w0, rest, rfl⟩ := List.exists_cons_of_ne_nil hne
    have hL : ∀ w ∈ w0 :: rest, w.length = w0.length :=
      fun w hw => hlen w hw w0 (List.mem_cons_self _ _)
    have hmax : maxLenOf (w0 :: rest) = w0.length :=
      maxLenOf_all_eq _ _ (by simp) hL
    rw [batch_signal_processing, if_neg (by simp)]
    rw [List.zip_map', List.map_map]
    apply List.map_congr_left
    intro w hw
    have hwlen : w.length = w0.length := hL w hw
    have hrep : maxLenOf (w0 :: rest) - w.length = 0 := by omega
    simp only [Function.comp, hrep, List.replicate_zero, List.append_nil]
    show (sosfilt sos (demean w)).take w.length = signal_processing sos w
    have hlen2 : (sosfilt sos (demean w)).length = w.length := by
      rw [sosfilt_length]
      simp [demean]
    rw [← hlen2, List.take_length _]
    rfl

/-- Claim C3, counterexample: with arrays `[4]` and `[0, 0]`, the batch
path pads `[4]` to `[4, 0]` and subtracts the padded mean 2, while the
individual path subtracts the mean 4 of `[4]` alone; with the Butterworth
sections the first batch output is nonzero while the individual output is
zero, so batch and individual processing disagree. -/
theorem batch_signal_processing_counterexample :
    ¬ (∀ (sos : List Biquad) (ws : List (List ℚ)),
        batch_signal_processing sos ws = ws.map (signal_processing sos)) := by
  intro h
  have h2 := h butter_sos_q [[4], [0, 0]]
  rw [batch_signal_processing, if_neg (by simp)] at h2
  revert h2
  norm_num [signal_processing, butter_sos_q, maxLenOf,
    demean, sosfilt, biquadFilter, biquadAux]

/-- Claim C3, witness for the amended theorem: an equal-length batch, where
batch and individual processing coincide. -/
theorem batch_signal_processing_equal_lengths_witness :
    (∀ w₁ ∈ ([[1, 2], [3, 4]] : List (List ℚ)),
        ∀ w₂ ∈ ([[1, 2], [3, 4]] : List (List ℚ)),
          List.length w₁ = List.length w₂)
    ∧ batch_signal_processing butter_sos_q [[1, 2], [3, 4]]
        = ([[1, 2], [3, 4]] : List (List ℚ)).map (signal_processing butter_sos_q) := by
  have hlen : ∀ w₁ ∈ ([[1, 2], [3, 4]] : List (List ℚ)),
      ∀ w₂ ∈ ([[1, 2], [3, 4]] : List (List ℚ)), List.length w₁ = List.length w₂ := by
    intro w₁ h₁ w₂ h₂
    simp only [List.mem_cons, List.not_mem_nil, or_false] at h₁ h₂
    rcases h₁ with rfl | rfl <;> rcases h₂ with rfl | rfl <;> rfl
  exact ⟨hlen, batch_signal_processing_equal_lengths butter_sos_q _ hlen⟩

/-! ## Helper lemmas: pick dedupe invariant -/

/-- The dedupe-loop invariant: after consuming `seen`, the map has nodup
keys, each entry is keyed by its record's key, the key set is exactly the
key set of the consumed records, and each stored record is a consumed
record maximal in `update_sec` among the consumed records of its key. -/
def PickInv (m : List ((String × String × ℚ) × PickRec))
    (seen : List PickRec) : Prop :=
  (m.map Prod.fst).Nodup
  ∧ (∀ p ∈ m, p.1 = pickKey p.2)
  ∧ (∀ k, k ∈ m.map Prod.fst ↔ k ∈ seen.map pickKey)
  ∧ (∀ p ∈ m, p.2 ∈ seen
      ∧ ∀ r ∈ seen, pickKey r = p.1 → r.update_sec ≤ p.2.update_sec)

theorem pickInsert_inv (m : List ((String × String × ℚ) × PickRec))
    (seen : List PickRec) (r : PickRec) (h : PickInv m seen) :
    PickInv (pickInsert m r) (seen ++ [r]) := by
  obtain ⟨hnd, hkey, hmem, hbest⟩ := h
  unfold pickInsert
  cases hl : alookup (pickKey r) m with
  | none =>
    have hnotin : pickKey r ∉ m.map Prod.fst := (alookup_eq_none_iff _ _).mp hl
    refine ⟨?_, ?_, ?_, ?_⟩
    · rw [List.map_append, List.map_cons, List.map_nil, List.nodup_append]
      refine ⟨hnd, List.nodup_singleton _, ?_⟩
      intro x hx hx2
      rw [List.mem_singleton.mp hx2] at hx
      exact hnotin hx
    · intro p hp
      rcases List.mem_append.mp hp with h1 | h1
      · exact hkey p h1
      · rw [List.mem_singleton.mp h1]
    · intro k
      simp only [List.map_append, List.mem_append, List.map_cons, List.map_nil]
      exact or_congr (hmem k) Iff.rfl
    · intro p hp
      rcases List.mem_append.mp hp with h1 | h1
      · obtain ⟨hin, hmax⟩ := hbest p h1
        refine ⟨List.mem_append_left _ hin, ?_⟩
        intro r' hr' hkr'
        rcases List.mem_append.mp hr' with h2 | h2
        · exact hmax r' h2 hkr'
        · rw [List.mem_singleton.mp h2] at hkr' ⊢
          exfalso
          apply hnotin
          rw [hkr']
          exact List.mem_map.mpr ⟨p, h1, rfl⟩
      · rw [List.mem_singleton.mp h1]
        refine ⟨List.mem_append_right _ (by simp), ?_⟩
        intro r' hr' hkr'
        rcases List.mem_append.mp hr' with h2 | h2
        · exfalso
          apply hnotin
          exact (hmem _).mpr (List.mem_map.mpr ⟨r', h2, hkr'⟩)
        · rw [List.mem_singleton.mp h2]
  | some s =>
    have hsm : (pickKey r, s) ∈ m := alookup_mem hl
    show PickInv
      (if s.update_sec < r.update_sec then
        m.map (fun p => if p.1 = pickKey r then (pickKey r, r) else p)
      else m) (seen ++ [r])
    by_cases hcmp : s.update_sec < r.update_sec
    · rw [if_pos hcmp]
      have hfst : (m.map
          (fun p => if p.1 = pickKey r then (pickKey r, r) else p)).map Prod.fst
          = m.map Prod.fst := by
        rw [List.map_map]
        apply List.map_congr_left
        intro p _hp
        by_cases hc : p.1 = pickKey r
        · show (if p.1 = pickKey r then (pickKey r, r) else p).1 = p.1
          rw [if_pos hc, hc]
        · show (if p.1 = pickKey r then (pickKey r, r) else p).1 = p.1
          rw [if_neg hc]
      refine ⟨?_, ?_, ?_, ?_⟩
      · rw [hfst]
        exact hnd
      · intro p hp
        obtain ⟨q, hq, rfl⟩ := List.mem_map.mp hp
        by_cases hc : q.1 = pickKey r
        · simp only [if_pos hc]
        · simp only [if_neg hc]
          exact hkey q hq
      · intro k
        rw [hfst, hmem k, List.map_append, List.map_cons, List.map_nil]
        constructor
        · exact fun hk => List.mem_append_left _ hk
        · intro hk
          rcases List.mem_append.mp hk with h2 | h2
          · exact h2
          · rw [List.mem_singleton.mp h2]
            exact (hmem _).mp (List.mem_map.mpr ⟨(pickKey r, s), hsm, rfl⟩)
      · intro p hp
        obtain ⟨q, hq, rfl⟩ := List.mem_map.mp hp
        by_cases hc : q.1 = pickKey r
        · simp only [if_pos hc]
          refine ⟨List.mem_append_right _ (by simp), ?_⟩
          intro r' hr' hkr'
          rcases List.mem_append.mp hr' with h2 | h2
          · have hle : r'.update_sec ≤ s.update_sec :=
              (hbest (pickKey r, s) hsm).2 r' h2 hkr'
            exact le_of_lt (lt_of_le_of_lt hle hcmp)
          · rw [List.mem_singleton.mp h2]
        · simp only [if_neg hc]
          obtain ⟨hin, hmax⟩ := hbest q hq
          refine ⟨List.mem_append_left _ hin, ?_⟩
          intro r' hr' hkr'
          rcases List.mem_append.mp hr' with h2 | h2
          · exact hmax r' h2 hkr'
          · rw [List.mem_singleton.mp h2] at hkr'
            exact absurd hkr'.symm hc
    · rw [if_neg hcmp]
      refine ⟨hnd, hkey, ?_, ?_⟩
      · intro k
        rw [hmem k, List.map_append, List.map_cons, List.map_nil]
        constructor
        · exact fun hk => List.mem_append_left _ hk
        · intro hk
          rcases List.mem_append.mp hk with h2 | h2
          · exact h2
          · rw [List.mem_singleton.mp h2]
            exact (hmem _).mp (List.mem_map.mpr ⟨(pickKey r, s), hsm, rfl⟩)
      · intro p hp
        obtain ⟨hin, hmax⟩ := hbest p hp
        refine ⟨List.mem_append_left _ hin, ?_⟩
        intro r' hr' hkr'
        rcases List.mem_append.mp hr' with h2 | h2
        · exact hmax r' h2 hkr'
        · rw [List.mem_singleton.mp h2] at hkr' ⊢
          have hpm : alookup p.1 m = some p.2 := mem_alookup hnd hp
          rw [← hkr'] at hpm
          have hps : p.2 = s := Option.some.inj (hpm.symm.trans hl)
          rw [hps]
          exact not_lt.mp hcmp

theorem foldl_pickInsert_inv :
    ∀ (msgs : List PickRec) (m : List ((String × String × ℚ) × PickRec))
      (seen : List PickRec), PickInv m seen →
        PickInv (msgs.foldl pickInsert m) (seen ++ msgs) := by
  intro msgs
  induction msgs with
  | nil =>
    intro m seen h
    simpa using h
  | cons r rs ih =>
    intro m seen h
    have h2 := ih (pickInsert m r) (seen ++ [r]) (pickInsert_inv m seen r h)
    simpa [List.append_assoc] using h2

/-- Claim C1 (confirmed).  Over any multiset of parsed pick records,
`get_historical_picks` retains exactly one record per
`(station, channel, pick_time)` key; the retained record is one of the
input records for that key and its `update_sec` is maximal among them; the
single `historical_picks_batch` frame carries exactly these records with
`count` equal to their number, which is the number of distinct keys. -/
theorem historical_picks_dedupe (msgs : List PickRec) :
    ((get_historical_picks msgs).map pickKey).Nodup
    ∧ (∀ k, k ∈ (get_historical_picks msgs).map pickKey ↔ k ∈ msgs.map pickKey)
    ∧ (∀ r ∈ get_historical_picks msgs,
        r ∈ msgs ∧ ∀ r' ∈ msgs, pickKey r' = pickKey r →
          r'.update_sec ≤ r.update_sec)
    ∧ (historical_picks_batch msgs).picks = get_historical_picks msgs
    ∧ (historical_picks_batch msgs).count = (get_historical_picks msgs).length
    ∧ (get_historical_picks msgs).length = (msgs.map pickKey).toFinset.card := by
  have hinv : PickInv (msgs.foldl pickInsert []) ([] ++ msgs) :=
    foldl_pickInsert_inv msgs [] []
      ⟨by simp, by simp, by simp [alookup], by simp⟩
  rw [List.nil_append] at hinv
  obtain ⟨hnd, hkey, hmem, hbest⟩ := hinv
  have hmapkey : ((msgs.foldl pickInsert []).map Prod.snd).map pickKey
      = (msgs.foldl pickInsert []).map Prod.fst := by
    rw [List.map_map]
    apply List.map_congr_left
    intro p hp
    exact (hkey p hp).symm
  refine ⟨?_, ?_, ?_, rfl, rfl, ?_⟩
  · show (((msgs.foldl pickInsert []).map Prod.snd).map pickKey).Nodup
    rw [hmapkey]
    exact hnd
  · intro k
    show k ∈ ((msgs.foldl pickInsert []).map Prod.snd).map pickKey ↔ _
    rw [hmapkey]
    exact hmem k
  · intro r hr
    obtain ⟨p, hp, rfl⟩ := List.mem_map.mp hr
    refine ⟨(hbest p hp).1, ?_⟩
    intro r' hr' hk
    refine (hbest p hp).2 r' hr' ?_
    rw [hkey p hp]
    exact hk
  · show ((msgs.foldl pickInsert []).map Prod.snd).length = _
    rw [List.length_map]
    have h2 : ((msgs.foldl pickInsert []).map Prod.fst).toFinset.card
        = ((msgs.foldl pickInsert []).map Prod.fst).length :=
      List.toFinset_card_of_nodup hnd
    have h3 : ((msgs.foldl pickInsert []).map Prod.fst).toFinset
        = (msgs.map pickKey).toFinset := by
      ext k
      simp only [List.mem_toFinset]
      exact hmem k
    rw [show (msgs.foldl pickInsert []).length
        = ((msgs.foldl pickInsert []).map Prod.fst).length from
      (List.length_map _ _).symm, ← h2, h3]

/-! ## Helper lemmas: circular window buffer -/

theorem assemble_length {N : Nat} {st : RingBuf} (h : BufWF N st) :
    (assemble st).length = N := by
  obtain ⟨h1, h2⟩ := h
  simp only [assemble, List.length_append, List.length_drop, List.length_take]
  omega

/-- The last `N` of a full window followed by new data: the old window's
prefix beyond the new data is kept, then the new data. -/
theorem lastN_append_small {α : Type} (A arr : List α) (N : Nat)
    (hA : A.length = N) (hn : arr.length ≤ N) :
    lastN N (A ++ arr) = A.drop arr.length ++ arr := by
  unfold lastN
  rw [List.length_append, hA]
  have h1 : N + arr.length - N = arr.length := by omega
  rw [h1, List.drop_append_eq_append_drop, hA]
  have h2 : arr.length - N = 0 := by omega
  rw [h2, List.drop_zero]

/-- Taking the last `N` twice absorbs: `lastN N (lastN N X ++ Y)` is
`lastN N (X ++ Y)` once `X` is at least `N` long. -/
theorem lastN_lastN_append {α : Type} (N : Nat) (X Y : List α)
    (h : N ≤ X.length) :
    lastN N (lastN N X ++ Y) = lastN N (X ++ Y) := by
  unfold lastN
  have h1 : (X.drop (X.length - N)).length = N := by
    rw [List.length_drop]
    omega
  rw [List.length_append, List.length_append, h1]
  rw [List.drop_append_eq_append_drop, List.drop_append_eq_append_drop]
  rw [List.drop_drop, h1]
  have e1 : X.length - N + (N + Y.length - N) = X.length + Y.length - N := by
    omega
  have e2 : N + Y.length - N - N = X.length + Y.length - N - X.length := by
    omega
  rw [e1, e2]

/-- The single-write step: the snapshot of the buffer after `circular_write`
is the last `N` samples of (old snapshot ++ new data), and well-formedness
is preserved. -/
theorem circular_write_snapshot (N : Nat) (hN : 0 < N) (st : RingBuf)
    (hwf : BufWF N st) (arr : List Int) :
    assemble (circular_write N st arr) = lastN N (assemble st ++ arr)
    ∧ BufWF N (circular_write N st arr) := by
  obtain ⟨hb, hi⟩ := hwf
  by_cases hn : N ≤ arr.length
  · rw [circular_write, if_pos hn]
    constructor
    · show (lastN N arr).drop 0 ++ (lastN N arr).take 0
        = lastN N (assemble st ++ arr)
      rw [List.drop_zero, List.take_zero, List.append_nil]
      have hA : (assemble st).length = N := assemble_length ⟨hb, hi⟩
      unfold lastN
      rw [List.length_append, hA]
      have h1 : N + arr.length - N = arr.length := by omega
      rw [h1, List.drop_append_eq_append_drop,
        List.drop_eq_nil_of_le (show (assemble st).length ≤ arr.length by omega),
        List.nil_append, hA]
    · refine ⟨?_, hN⟩
      show (lastN N arr).length = N
      unfold lastN
      rw [List.length_drop]
      omega
  · push_neg at hn
    rw [circular_write, if_neg (by omega)]
    have hA : (assemble st).length = N := assemble_length ⟨hb, hi⟩
    have hRHS : lastN N (assemble st ++ arr)
        = (assemble st).drop arr.length ++ arr :=
      lastN_append_small _ _ _ hA (by omega)
    by_cases hfit : st.idx + arr.length ≤ N
    · rw [if_pos hfit]
      constructor
      · rw [hRHS]
        by_cases hexact : st.idx + arr.length = N
        · rw [hexact, Nat.mod_self]
          show (setSlice st.buf st.idx arr).drop 0
              ++ (setSlice st.buf st.idx arr).take 0
            = (assemble st).drop arr.length ++ arr
          rw [List.drop_zero, List.take_zero, List.append_nil]
          unfold setSlice assemble
          rw [hexact,
            List.drop_eq_nil_of_le (show st.buf.length ≤ N by omega),
            List.append_nil]
          have hD : (st.buf.drop st.idx).length = arr.length := by
            rw [List.length_drop, hb]
            omega
          rw [List.drop_left' hD]
        · have hlt : st.idx + arr.length < N := by omega
          rw [Nat.mod_eq_of_lt hlt]
          show (setSlice st.buf st.idx arr).drop (st.idx + arr.length)
              ++ (setSlice st.buf st.idx arr).take (st.idx + arr.length)
            = (assemble st).drop arr.length ++ arr
          unfold setSlice assemble
          have htake : (st.buf.take st.idx).length = st.idx := by
            rw [List.length_take]
            omega
          have hTA : (st.buf.take st.idx ++ arr).length
              = st.idx + arr.length := by
            rw [List.length_append, htake]
          have hdd : st.buf.drop (st.idx + arr.length)
              = (st.buf.drop st.idx).drop arr.length :=
            (List.drop_drop arr.length st.idx st.buf).symm
          rw [hdd, List.drop_left' hTA, List.take_left' hTA]
          rw [List.drop_append_eq_append_drop, List.length_drop, hb]
          have h4 : arr.length - (N - st.idx) = 0 := by omega
          rw [h4, List.drop_zero, List.append_assoc]
      · refine ⟨?_, Nat.mod_lt _ hN⟩
        show (setSlice st.buf st.idx arr).length = N
        unfold setSlice
        simp only [List.length_append, List.length_take, List.length_drop, hb]
        omega
    · rw [if_neg hfit]
      push_neg at hfit
      constructor
      · rw [hRHS]
        have hmod : (st.idx + arr.length) % N = st.idx + arr.length - N := by
          rw [Nat.mod_eq_sub_mod (by omega)]
          exact Nat.mod_eq_of_lt (by omega)
        rw [hmod]
        show (setSlice (setSlice st.buf st.idx (arr.take (N - st.idx))) 0
              (arr.drop (N - st.idx))).drop (st.idx + arr.length - N)
            ++ (setSlice (setSlice st.buf st.idx (arr.take (N - st.idx))) 0
              (arr.drop (N - st.idx))).take (st.idx + arr.length - N)
          = (assemble st).drop arr.length ++ arr
        have ha : (arr.take (N - st.idx)).length = N - st.idx := by
          rw [List.length_take]
          omega
        have hda : (arr.drop (N - st.idx)).length
            = st.idx + arr.length - N := by
          rw [List.length_drop]
          omega
        unfold setSlice
        rw [ha]
        have hia : st.idx + (N - st.idx) = N := by omega
        rw [hia,
          List.drop_eq_nil_of_le (show st.buf.length ≤ N by omega),
          List.append_nil]
        rw [List.take_zero, List.nil_append, Nat.zero_add, hda]
        rw [List.drop_left' hda, List.take_left' hda]
        rw [List.drop_append_eq_append_drop]
        have htake : (st.buf.take st.idx).length = st.idx := by
          rw [List.length_take]
          omega
        rw [htake]
        have h5 : st.idx + arr.length - N - st.idx = 0 := by omega
        rw [h5, List.drop_zero, List.append_assoc, List.take_append_drop]
        unfold assemble
        rw [List.drop_append_eq_append_drop,
          List.drop_eq_nil_of_le
            (show (st.buf.drop st.idx).length ≤ arr.length by
              rw [List.length_drop, hb]
              omega),
          List.nil_append, List.length_drop, hb]
        have h6 : arr.length - (N - st.idx) = st.idx + arr.length - N := by
          omega
        rw [h6]
      · refine ⟨?_, Nat.mod_lt _ hN⟩
        show (setSlice (setSlice st.buf st.idx (arr.take (N - st.idx))) 0
            (arr.drop (N - st.idx))).length = N
        unfold setSlice
        simp only [List.length_append, List.length_take, List.length_drop, hb,
          Nat.zero_add]
        omega

theorem write_all_snapshot (N : Nat) (hN : 0 < N) :
    ∀ (packets : List (List Int)) (st : RingBuf), BufWF N st →
      assemble (write_all N st packets)
        = lastN N (assemble st ++ packets.flatten)
      ∧ BufWF N (write_all N st packets) := by
  intro packets
  induction packets with
  | nil =>
    intro st hwf
    refine ⟨?_, hwf⟩
    rw [List.flatten_nil, List.append_nil]
    unfold lastN
    rw [assemble_length hwf, Nat.sub_self, List.drop_zero]
    rfl
  | cons p ps ih =>
    intro st hwf
    obtain ⟨h1, h2⟩ := circular_write_snapshot N hN st hwf p
    obtain ⟨h3, h4⟩ := ih (circular_write N st p) h2
    refine ⟨?_, h4⟩
    show assemble (write_all N (circular_write N st p) ps) = _
    rw [h3, h1,
      lastN_lastN_append _ _ _
        (by rw [List.length_append, assemble_length hwf]; omega),
      List.append_assoc, List.flatten_cons]

theorem write_all_idx (N : Nat) (hN : 0 < N) :
    ∀ (packets : List (List Int)) (st : RingBuf), st.idx < N →
      (∀ p ∈ packets, p.length < N) →
      (write_all N st packets).idx
        = (st.idx + (packets.map List.length).sum) % N := by
  intro packets
  induction packets with
  | nil =>
    intro st hidx _
    show st.idx = (st.idx + 0) % N
    rw [Nat.add_zero, Nat.mod_eq_of_lt hidx]
  | cons p ps ih =>
    intro st hidx hp
    have hplen : p.length < N := hp p (List.mem_cons_self _ _)
    have hwidx : (circular_write N st p).idx = (st.idx + p.length) % N := by
      rw [circular_write, if_neg (by omega)]
      by_cases hfit : st.idx + p.length ≤ N
      · rw [if_pos hfit]
      · rw [if_neg hfit]
    show (write_all N (circular_write N st p) ps).idx = _
    rw [ih (circular_write N st p) (by rw [hwidx]; exact Nat.mod_lt _ hN)
      (fun q hq => hp q (List.mem_cons_of_mem _ hq)), hwidx]
    rw [Nat.mod_add_mod, List.map_cons, List.sum_cons, ← Nat.add_assoc]

/-- Claim C4 (confirmed).  For the capacity-`N` window buffer: a chunk of
length `≥ N` overwrites the buffer with its last `N` samples and resets
the write index; a shorter chunk advances the index by its length mod `N`;
and after any sequence of sub-`N` packets starting from the zero buffer,
the snapshot is the last `N` samples of (initial zeros ++ all written
samples) — hence exactly the last `N` written samples once at least `N`
have been written — and the index is the total written length mod `N`. -/
theorem circular_buffer_window (N : Nat) (packets : List (List Int))
    (hN : 0 < N) (hp : ∀ p ∈ packets, p.length < N) :
    assemble (write_all N (init_buffer N) packets)
      = lastN N (List.replicate N 0 ++ packets.flatten)
    ∧ (write_all N (init_buffer N) packets).idx
      = (packets.map List.length).sum % N
    ∧ (∀ (st : RingBuf) (arr : List Int), N ≤ arr.length →
        circular_write N st arr = { buf := lastN N arr, idx := 0 })
    ∧ (∀ (st : RingBuf) (arr : List Int), arr.length < N →
        (circular_write N st arr).idx = (st.idx + arr.length) % N)
    ∧ (N ≤ packets.flatten.length →
        assemble (write_all N (init_buffer N) packets)
          = lastN N packets.flatten) := by
  have hwf0 : BufWF N (init_buffer N) := ⟨List.length_replicate _ _, hN⟩
  have hsnap := write_all_snapshot N hN packets (init_buffer N) hwf0
  have hassemble0 : assemble (init_buffer N) = List.replicate N (0 : Int) := by
    show (List.replicate N (0 : Int)).drop 0
        ++ (List.replicate N (0 : Int)).take 0 = _
    rw [List.drop_zero, List.take_zero, List.append_nil]
  refine ⟨?_, ?_, ?_, ?_, ?_⟩
  · rw [hsnap.1, hassemble0]
  · have hidx := write_all_idx N hN packets (init_buffer N) hN hp
    rw [hidx]
    show (0 + (packets.map List.length).sum) % N = _
    rw [Nat.zero_add]
  · intro st arr h
    rw [circular_write, if_pos h]
  · intro st arr h
    rw [circular_write, if_neg (by omega)]
    by_cases hfit : st.idx + arr.length ≤ N
    · rw [if_pos hfit]
    · rw [if_neg hfit]
  · intro hj
    rw [hsnap.1, hassemble0]
    unfold lastN
    rw [List.length_append, List.length_replicate,
      List.drop_append_eq_append_drop,
      List.drop_eq_nil_of_le
        (show (List.replicate N (0 : Int)).length ≤ N + packets.flatten.length - N
          by rw [List.length_replicate]; omega),
      List.nil_append, List.length_replicate]
    congr 1
    omega

/-- The S6 scenario packets: 1500 samples across 16 sub-capacity packets. -/
def wrap_packets : List (List Int) :=
  List.replicate 15 (List.replicate 94 0) ++ [List.replicate 90 0]

/-- Claim C4, witness: N = 1000, 1500 samples in 16 packets; the snapshot
is the last 1000 of (zeros ++ stream) and the write index is
`1500 % 1000 = 500`. -/
theorem circular_buffer_window_witness :
    0 < 1000 ∧ (∀ p ∈ wrap_packets, p.length < 1000)
    ∧ ((wrap_packets.map List.length).sum % 1000 = 500
      ∧ assemble (write_all 1000 (init_buffer 1000) wrap_packets)
          = lastN 1000 (List.replicate 1000 0 ++ wrap_packets.flatten)
      ∧ (write_all 1000 (init_buffer 1000) wrap_packets).idx
          = (wrap_packets.map List.length).sum % 1000) := by
  have hp : ∀ p ∈ wrap_packets, p.length < 1000 := by
    intro p hmem
    unfold wrap_packets at hmem
    rcases List.mem_append.mp hmem with h | h
    · rw [List.eq_of_mem_replicate h]
      simp
    · rw [List.mem_singleton.mp h]
      simp
  have hmain := circular_buffer_window 1000 wrap_packets (by decide) hp
  refine ⟨by decide, hp, ?_, hmain.1, hmain.2.1⟩
  decide
